import Mathlib

/-!
Shallow embedding of the Poci lineage-ledger prototype.

Byte strings are modelled as `String` (all byte strings in the code are
UTF-8 encodings of text, and UTF-8 encoding is injective) except raw
signatures and keys, modelled as `List Nat`.  The BLAKE2b digest and the
Ed25519 primitives are external library calls (hashlib, pynacl), so they
enter the embedding as explicit function parameters: every theorem below
is proved for an arbitrary digest / signature oracle, hence in particular
for the real ones.  SQLite state is modelled as the list of rows in
insertion order; every query of the code is translated literally
(MAX(idx), ORDER BY idx DESC LIMIT 1, ORDER BY idx, WHERE model_id = ?).
Python in-place attribute assignment (the attacker `mutate_event` hooks)
is modelled by explicit heap passing: a heap of events and a reference.
-/

namespace Poci

/-- lineage.py: `GENESIS = "0" * 64`. -/
def GENESIS : String :=
  "0000000000000000000000000000000000000000000000000000000000000000"

/-- lineage.py: the `Event` dataclass. `ts` is an unbounded Python int
(modelled `Int`, since clock regressions matter); `index` is the global
store index (spec: u64, modelled `Nat`); `signature` is raw bytes. -/
structure Event where
  model_id : String
  index : Nat
  ts : Int
  payload : String
  payload_hash : String
  payload_commit : String
  prev_hash : String
  event_hash : String
  signature : List Nat
deriving DecidableEq, Repr

/-- lineage.py `Event.canonical_bytes`: the f-string
`model_id|index|prev_hash|event_hash|payload_commit|ts`, UTF-8 encoded. -/
def Event.canonical_bytes (e : Event) : String :=
  e.model_id ++ "|" ++ toString e.index ++ "|" ++ e.prev_hash ++ "|" ++
    e.event_hash ++ "|" ++ e.payload_commit ++ "|" ++ toString e.ts

/-- crypto_utils.py `commit_payload`: BLAKE2b-256 of the raw payload bytes.
The digest itself is the abstract parameter `blake2b`. -/
def commit_payload (blake2b : String → String) (payload : String) : String :=
  blake2b payload

/-- crypto_utils.py `hash_payload`: BLAKE2b-256 of
`model_id|index|prev_hash|payload|ts` with single `|` separators. -/
def hash_payload (blake2b : String → String) (model_id : String) (index : Nat)
    (prev_hash : String) (payload : String) (ts : Int) : String :=
  blake2b (model_id ++ "|" ++ toString index ++ "|" ++ prev_hash ++ "|" ++
    payload ++ "|" ++ toString ts)

/-- pynacl raises `BadSignatureError` on any signature failure. -/
structure BadSignatureError where
deriving DecidableEq, Repr

/-- crypto_utils.py `verify_signature`: calls the pynacl verifier (the
abstract parameter `naclVerify`, which models `vk.verify` as fallible
code returning `Except`) inside try/except BadSignatureError. -/
def verify_signature (naclVerify : List Nat → String → List Nat → Except BadSignatureError Unit)
    (vk : List Nat) (message_bytes : String) (signature : List Nat) : Bool :=
  match naclVerify vk message_bytes signature with
  | .ok _ => true
  | .error _ => false

/-! ## Lineage store (lineage.py `LineageStore`)

The SQLite table is the list of inserted rows; `append` inserts at the
end.  `next_index` is `SELECT COALESCE(MAX(idx) + 1, 0)`; the
`ORDER BY idx DESC LIMIT 1` queries select the row of maximal `idx`
among the rows with the given `model_id`. -/

/-- The query `SELECT COALESCE(MAX(idx) + 1, 0) FROM events`. -/
def next_index (s : List Event) : Nat :=
  match s with
  | [] => 0
  | _ => (s.map Event.index).foldl max 0 + 1

/-- One step of computing the row of maximal `idx`: keep the later
(higher-`idx`) of the accumulator and the next row. -/
def pickLater (acc : Option Event) (e : Event) : Option Event :=
  match acc with
  | none => some e
  | some a => if a.index < e.index then some e else some a

/-- The row selected by `WHERE model_id = ? ORDER BY idx DESC LIMIT 1`:
the matching row of maximal `idx` (indices are unique in the table). -/
def selectLast (s : List Event) (m : String) : Option Event :=
  (s.filter (fun e => e.model_id == m)).foldl pickLater none

/-- lineage.py `LineageStore.last_hash`: `event_hash` of the newest row
for `model_id`, or `GENESIS` when there is none. -/
def last_hash (s : List Event) (m : String) : String :=
  match selectLast s m with
  | some e => e.event_hash
  | none => GENESIS

/-- lineage.py `LineageStore.last_ts`: `ts` of the newest row for
`model_id`, or `None`. -/
def last_ts (s : List Event) (m : String) : Option Int :=
  (selectLast s m).map Event.ts

/-- The two `ValueError` raise sites of `LineageStore.append` (the spec
names them `IndexMismatch` and `PrevHashMismatch`). -/
inductive AppendError where
  | indexMismatch : AppendError
  | prevHashMismatch : AppendError
deriving DecidableEq, Repr

/-- lineage.py `LineageStore.append`: raise on index mismatch, then raise
on prev-hash mismatch, then INSERT the row.  Both raises happen before
the INSERT, so on error no row is written. -/
def append (s : List Event) (ev : Event) : Except AppendError (List Event) :=
  let expected_idx := next_index s
  if ev.index ≠ expected_idx then
    .error .indexMismatch
  else
    let expected_prev := last_hash s ev.model_id
    if ev.prev_hash ≠ expected_prev then
      .error .prevHashMismatch
    else
      .ok (s ++ [ev])

/-- A sequence of appends starting from a given store state, stopping at
the first error (a raised ValueError aborts the run). -/
def appendAll (s : List Event) (evs : List Event) : Except AppendError (List Event) :=
  match evs with
  | [] => .ok s
  | ev :: rest =>
    match append s ev with
    | .error e => .error e
    | .ok s' => appendAll s' rest

/-- lineage.py `LineageStore.get_chain`: `WHERE model_id = ? ORDER BY idx`.
The rows matching `model_id`, sorted ascending by `idx`. -/
def get_chain (s : List Event) (m : String) : List Event :=
  List.insertionSort (fun a b => a.index ≤ b.index)
    (s.filter (fun e => e.model_id == m))

/-! ## Reputation controller (controller.py) -/

/-- controller.py: one `{"weight": ..., "theta": ...}` dict value. -/
structure CtrlEntry where
  weight : Int
  theta : Int
deriving DecidableEq, Repr

/-- controller.py `Controller`: `self.state` is a dict from model_id,
modelled as an association list (first binding wins on lookup; keys are
never duplicated by the operations below). -/
structure Controller where
  state : List (String × CtrlEntry)
deriving DecidableEq, Repr

/-- controller.py `Controller._ensure`: insert the default entry
`{weight: 1000, theta: 500}` when `model_id` is absent. -/
def Controller.ensure (c : Controller) (model_id : String) : Controller :=
  match c.state.lookup model_id with
  | some _ => c
  | none => ⟨(model_id, ⟨1000, 500⟩) :: c.state⟩

/-- Replace the dict value bound to `model_id` (in-place update of
`self.state[model_id]`). -/
def Controller.setEntry (c : Controller) (model_id : String) (e : CtrlEntry) : Controller :=
  ⟨c.state.map (fun p => if p.1 = model_id then (model_id, e) else p)⟩

/-- controller.py `Controller.update`: `_ensure`, then the saturating
good / bad step on the entry of `model_id`. -/
def Controller.update (c : Controller) (model_id : String) (valid : Bool) : Controller :=
  let c1 := c.ensure model_id
  match c1.state.lookup model_id with
  | none => c1
  | some m =>
    if valid then
      c1.setEntry model_id ⟨min 1000 (m.weight + 30), max 50 (m.theta - 8)⟩
    else
      c1.setEntry model_id ⟨max 0 (m.weight - 100), min 500 (m.theta + 30)⟩

/-- controller.py `Controller.get`: `_ensure`, then read the entry.  The
`none` branch is unreachable (proved below); its value is arbitrary. -/
def Controller.get (c : Controller) (model_id : String) : (Int × Int) × Controller :=
  let c1 := c.ensure model_id
  match c1.state.lookup model_id with
  | some m => ((m.weight, m.theta), c1)
  | none => ((0, 0), c1)

/-- A finite verdict stream applied to a controller, one `update` per
verdict. -/
def runVerdicts (c : Controller) (l : List (String × Bool)) : Controller :=
  l.foldl (fun c p => c.update p.1 p.2) c

/-! ## Agent timestamps (models.py `BaseModel`) -/

/-- models.py `BaseModel._next_ts`: the candidate
`max(now, self._last_ts + 1, (last_db_ts + 1) if last_db_ts is not None else 0)`;
the caller stores the candidate back into `self._last_ts`. -/
def next_ts (now : Int) (last_ts : Int) (last_db_ts : Option Int) : Int :=
  max now (max (last_ts + 1)
    (match last_db_ts with
     | some t => t + 1
     | none => 0))

/-- models.py `BaseModel.make_event` for one agent holding `sk` and
`model_id`, with private counter `_last_ts`: reads `next_index`,
`last_hash` and `last_ts` from the store, takes the wall clock as `now`,
computes commit / event hash / canonical bytes, signs the canonical
bytes (reversed when `cheat`), and returns the event together with the
updated `_last_ts`. -/
def make_event (blake2b : String → String)
    (sign : List Nat → String → List Nat) (sk : List Nat)
    (model_id : String) (last_ts_state : Int) (now : Int)
    (store : List Event) (payload : String) (cheat : Bool) : Event × Int :=
  let idx := next_index store
  let prev := last_hash store model_id
  let ts := next_ts now last_ts_state (last_ts store model_id)
  let payload_commit := commit_payload blake2b payload
  let ev_hash := hash_payload blake2b model_id idx prev payload ts
  let payload_hash := ev_hash
  let canonical := model_id ++ "|" ++ toString idx ++ "|" ++ prev ++ "|" ++
    ev_hash ++ "|" ++ payload_commit ++ "|" ++ toString ts
  let message_bytes := if cheat then String.mk canonical.data.reverse else canonical
  let sig := sign sk message_bytes
  (⟨model_id, idx, ts, payload, payload_hash, payload_commit, prev, ev_hash, sig⟩,
   ts)

/-- A sequence of `make_event` calls on one agent: each call supplies a
wall-clock reading, a store snapshot, a payload and a cheat flag; the
private `_last_ts` threads through.  Returns the produced events. -/
def runMake (blake2b : String → String)
    (sign : List Nat → String → List Nat) (sk : List Nat)
    (model_id : String) : Int → List (Int × List Event × String × Bool) → List Event
  | _, [] => []
  | last_ts_state, (now, store, payload, cheat) :: rest =>
    let r := make_event blake2b sign sk model_id last_ts_state now store payload cheat
    r.1 :: runMake blake2b sign sk model_id r.2 rest

/-! ## Full verifier (run_stress.py `verify_event_full`) -/

/-- run_stress.py `AnomalyStats` (the counter fields used by
`verify_event_full` and `mark_bad`). -/
structure AnomalyStats where
  total_events : Nat := 0
  honest_events : Nat := 0
  attacker_events : Nat := 0
  sig_invalid : Nat := 0
  commit_mismatch : Nat := 0
  eventhash_mismatch : Nat := 0
  bad_events : Nat := 0
  per_model_bad : List (String × Nat) := []
deriving DecidableEq, Repr

/-- run_stress.py `AnomalyStats.mark_bad`: bump `bad_events` and the
per-model tally (`dict.get(model_id, 0) + 1`). -/
def AnomalyStats.mark_bad (st : AnomalyStats) (model_id : String) : AnomalyStats :=
  { st with
    bad_events := st.bad_events + 1,
    per_model_bad :=
      match st.per_model_bad.lookup model_id with
      | some c => st.per_model_bad.map
          (fun p => if p.1 = model_id then (model_id, c + 1) else p)
      | none => (model_id, 1) :: st.per_model_bad }

/-- run_stress.py `verify_event_full`: recompute commit and event hash,
check the signature over the canonical bytes, bump the anomaly
counters, feed the verdict to the controller, `mark_bad` on failure,
and return the verdict.  The controller and stats objects are passed in
and mutated; the embedding returns their new values. -/
def verify_event_full (blake2b : String → String)
    (naclVerify : List Nat → String → List Nat → Except BadSignatureError Unit)
    (ev : Event) (vk : List Nat) (c : Controller) (st : AnomalyStats) :
    Bool × Controller × AnomalyStats :=
  let st := { st with total_events := st.total_events + 1 }
  let recomputed_commit := commit_payload blake2b ev.payload
  let commit_ok := recomputed_commit == ev.payload_commit
  let recomputed_eh :=
    hash_payload blake2b ev.model_id ev.index ev.prev_hash ev.payload ev.ts
  let eventhash_ok := (recomputed_eh == ev.event_hash) && (ev.payload_hash == ev.event_hash)
  let sig_ok := verify_signature naclVerify vk ev.canonical_bytes ev.signature
  let st := if !sig_ok then { st with sig_invalid := st.sig_invalid + 1 } else st
  let st := if !commit_ok then { st with commit_mismatch := st.commit_mismatch + 1 } else st
  let st := if !eventhash_ok then
      { st with eventhash_mismatch := st.eventhash_mismatch + 1 }
    else st
  let ok := sig_ok && commit_ok && eventhash_ok
  let c := c.update ev.model_id ok
  let st := if !ok then st.mark_bad ev.model_id else st
  (ok, c, st)

/-! ## Rebuild helper (lineage.py `rebuild_event`) -/

/-- lineage.py `rebuild_event`: build a fully consistent event from raw
pieces; `payload_hash` is unified with `event_hash`. -/
def rebuild_event (blake2b : String → String) (model_id : String) (index : Nat)
    (payload : String) (prev_hash : String) (ts : Int) (signature : List Nat) : Event :=
  let payload_commit := commit_payload blake2b payload
  let ev_hash := hash_payload blake2b model_id index prev_hash payload ts
  let payload_hash := ev_hash
  { model_id := model_id, index := index, ts := ts, payload := payload,
    payload_hash := payload_hash, payload_commit := payload_commit,
    prev_hash := prev_hash, event_hash := ev_hash, signature := signature }

/-! ## Attacker mutation hooks (run_stress.py), with an explicit heap

Python dataclass instances live on a heap and the attacker hooks assign
to attributes of the instance they receive; the hooks then `return ev`,
i.e. the same reference.  The heap is a list of events, a reference is
an index into it. -/

/-- A Python heap of Event objects; references are positions. -/
abbrev Heap := List Event

/-- In-place attribute assignment on the object at reference `r`. -/
def heapModify (h : Heap) (r : Nat) (f : Event → Event) : Heap :=
  match List.get? h r with
  | some e => List.set h r (f e)
  | none => h

/-- The sentinel `"DEAD" * 16` of `CommitDriftAttacker.mutate_event`. -/
def DEAD64 : String :=
  "DEADDEADDEADDEADDEADDEADDEADDEADDEADDEADDEADDEADDEADDEADDEADDEAD"

/-- The sentinel `"BEEF" * 16` of `CommitDriftAttacker.mutate_event`. -/
def BEEF64 : String :=
  "BEEFBEEFBEEFBEEFBEEFBEEFBEEFBEEFBEEFBEEFBEEFBEEFBEEFBEEFBEEFBEEF"

/-- The `random.choice(["payload_commit_only", "event_hash_only", "both"])`
outcome of `CommitDriftAttacker.mutate_event`. -/
inductive DriftMode where
  | payload_commit_only : DriftMode
  | event_hash_only : DriftMode
  | both : DriftMode
deriving DecidableEq, Repr

/-- run_stress.py `CommitDriftAttacker.mutate_event` on the object at
reference `r`.  `doDrift` is the `random.random() < self.drift_rate`
outcome, `mode` the `random.choice` outcome.  The code assigns
`ev.payload_commit`, `ev.event_hash` and `ev.payload_hash = ev.event_hash`
on the received object and returns the same reference. -/
def commitDrift_mutate (doDrift : Bool) (mode : DriftMode)
    (h : Heap) (r : Nat) : Heap × Nat :=
  if !doDrift then (h, r)
  else
    let h :=
      if mode = .payload_commit_only ∨ mode = .both then
        heapModify h r (fun e => { e with payload_commit := DEAD64 })
      else h
    let h :=
      if mode = .event_hash_only ∨ mode = .both then
        let h := heapModify h r (fun e => { e with event_hash := BEEF64 })
        heapModify h r (fun e => { e with payload_hash := e.event_hash })
      else h
    (h, r)

/-- run_stress.py `SlowDripAttacker.mutate_event` on the object at
reference `r`: with probability `drip_rate` (outcome `doDrip`) append
`"_shadow"` to `ev.payload` in place, leaving the hash fields stale. -/
def slowDrip_mutate (doDrip : Bool) (h : Heap) (r : Nat) : Heap × Nat :=
  if !doDrip then (h, r)
  else (heapModify h r (fun e => { e with payload := e.payload ++ "_shadow" }), r)

/-! ## Chain-continuity predicates and the store invariant -/

/-- The events of a list form a hash chain rooted at `h`: the first
event's `prev_hash` is `h`, and each later event's `prev_hash` is the
`event_hash` of the event right before it. -/
def linkedFrom : String → List Event → Prop
  | _, [] => True
  | h, e :: rest => e.prev_hash = h ∧ linkedFrom e.event_hash rest

/-- The `event_hash` at the end of a chain (or the root `h` for an empty
chain). -/
def endHash : String → List Event → String
  | h, [] => h
  | _, e :: rest => endHash e.event_hash rest

/-- The inductive store invariant: stored indices are exactly
`0, …, n−1` in insertion order, and for every model id the stored rows
of that id form a hash chain rooted at `GENESIS` whose end
`last_hash` reports. -/
def StoreInv (s : List Event) : Prop :=
  s.map Event.index = List.range s.length ∧
  ∀ m : String,
    linkedFrom GENESIS (s.filter (fun e => e.model_id == m)) ∧
    last_hash s m = endHash GENESIS (s.filter (fun e => e.model_id == m))

/-- Three concrete events over two model ids, used in closed instances:
a valid interleaved history (A at index 0, B at index 1, A at index 2). -/
def demoEvents : List Event :=
  [⟨"A", 0, 1, "x", "xh", "xc", GENESIS, "a0", []⟩,
   ⟨"B", 1, 1, "y", "yh", "yc", GENESIS, "b0", []⟩,
   ⟨"A", 2, 2, "z", "zh", "zc", "a0", "a1", []⟩]

/-! ## Controller lemmas -/

/-- After `_ensure`, the entry of `model_id` is the old entry or the
default `{weight: 1000, theta: 500}`. -/
lemma lookup_ensure (c : Controller) (m : String) :
    (c.ensure m).state.lookup m = some ((c.state.lookup m).getD ⟨1000, 500⟩) := by
  unfold Controller.ensure
  cases h : c.state.lookup m with
  | none => simp [h]
  | some e => simp [h]

/-- Running `_ensure` does not touch the binding of any other model id. -/
lemma lookup_ensure_ne (c : Controller) (m m' : String) (hne : m' ≠ m) :
    (c.ensure m).state.lookup m' = c.state.lookup m' := by
  unfold Controller.ensure
  cases h : c.state.lookup m with
  | none =>
    have hbeq : (m' == m) = false := beq_eq_false_iff_ne.mpr hne
    simp [List.lookup, hbeq]
  | some e => rfl

/-- Running `setEntry` rewrites the binding of `model_id` when present. -/
lemma lookup_setEntry (c : Controller) (m : String) (e : CtrlEntry) :
    (c.setEntry m e).state.lookup m = (c.state.lookup m).map (fun _ => e) := by
  obtain ⟨l⟩ := c
  show List.lookup m (l.map (fun p => if p.1 = m then (m, e) else p)) =
    (l.lookup m).map (fun _ => e)
  induction l with
  | nil => rfl
  | cons p rest ih =>
    obtain ⟨k, v⟩ := p
    rw [List.map_cons]
    by_cases hp : k = m
    · subst hp
      have h1 : (if ((k, v) : String × CtrlEntry).1 = k then (k, e) else (k, v)) = (k, e) := by
        simp
      rw [h1]
      simp [List.lookup]
    · have h1 : (if ((k, v) : String × CtrlEntry).1 = m then (m, e) else (k, v)) = (k, v) := by
        simp [hp]
      rw [h1]
      have hbeq : (m == k) = false := beq_eq_false_iff_ne.mpr (fun h => hp h.symm)
      simp only [List.lookup, hbeq]
      exact ih

/-- Running `setEntry` does not touch the binding of any other model id. -/
lemma lookup_setEntry_ne (c : Controller) (m m' : String) (e : CtrlEntry)
    (hne : m' ≠ m) :
    (c.setEntry m e).state.lookup m' = c.state.lookup m' := by
  obtain ⟨l⟩ := c
  show List.lookup m' (l.map (fun p => if p.1 = m then (m, e) else p)) = l.lookup m'
  induction l with
  | nil => rfl
  | cons p rest ih =>
    obtain ⟨k, v⟩ := p
    rw [List.map_cons]
    by_cases hp : k = m
    · subst hp
      have h1 : (if ((k, v) : String × CtrlEntry).1 = k then (k, e) else (k, v)) = (k, e) := by
        simp
      rw [h1]
      have hbeq : (m' == k) = false := beq_eq_false_iff_ne.mpr hne
      simp only [List.lookup, hbeq]
      exact ih
    · have h1 : (if ((k, v) : String × CtrlEntry).1 = m then (m, e) else (k, v)) = (k, v) := by
        simp [hp]
      rw [h1]
      cases hbeq : m' == k
      · simp only [List.lookup, hbeq]
        exact ih
      · simp only [List.lookup, hbeq]

/-- The entry of `model_id` after `update`: the saturating good / bad
step applied to the previous entry, or to the default for a new id. -/
lemma lookup_update (c : Controller) (m : String) (v : Bool) :
    (c.update m v).state.lookup m =
      some (let e := (c.state.lookup m).getD ⟨1000, 500⟩
            if v then CtrlEntry.mk (min 1000 (e.weight + 30)) (max 50 (e.theta - 8))
            else CtrlEntry.mk (max 0 (e.weight - 100)) (min 500 (e.theta + 30))) := by
  unfold Controller.update
  simp only [lookup_ensure c m]
  cases v <;> simp [lookup_setEntry, lookup_ensure c m]

/-- Running `update` does not touch the binding of any other model id. -/
lemma lookup_update_ne (c : Controller) (m m' : String) (v : Bool) (hne : m' ≠ m) :
    (c.update m v).state.lookup m' = c.state.lookup m' := by
  unfold Controller.update
  simp only [lookup_ensure c m]
  cases v <;> simp [lookup_setEntry_ne _ _ _ _ hne, lookup_ensure_ne c m m' hne]

/-- Entries reachable from the empty controller satisfy the saturation
bounds. -/
lemma runVerdicts_bounds (l : List (String × Bool)) (c : Controller)
    (hc : ∀ m e, c.state.lookup m = some e →
      0 ≤ e.weight ∧ e.weight ≤ 1000 ∧ 50 ≤ e.theta ∧ e.theta ≤ 500) :
    ∀ m e, (runVerdicts c l).state.lookup m = some e →
      0 ≤ e.weight ∧ e.weight ≤ 1000 ∧ 50 ≤ e.theta ∧ e.theta ≤ 500 := by
  induction l generalizing c with
  | nil => exact hc
  | cons p rest ih =>
    refine ih (c.update p.1 p.2) ?_
    intro m e hm
    by_cases hmm : m = p.1
    · rw [hmm, lookup_update] at hm
      have hd : 0 ≤ ((c.state.lookup p.1).getD ⟨1000, 500⟩).weight ∧
          ((c.state.lookup p.1).getD ⟨1000, 500⟩).weight ≤ 1000 ∧
          50 ≤ ((c.state.lookup p.1).getD ⟨1000, 500⟩).theta ∧
          ((c.state.lookup p.1).getD ⟨1000, 500⟩).theta ≤ 500 := by
        cases h : c.state.lookup p.1 with
        | none => simp
        | some e0 => simpa using hc p.1 e0 h
      obtain ⟨hd1, hd2, hd3, hd4⟩ := hd
      cases hv : p.2 <;> rw [hv] at hm <;>
        simp only [if_true, if_false, Bool.false_eq_true, Option.some.injEq] at hm <;>
        rw [← hm] <;>
        exact ⟨by simp <;> omega, by simp <;> omega, by simp <;> omega, by simp <;> omega⟩
    · rw [lookup_update_ne c p.1 m p.2 hmm] at hm
      exact hc m e hm

/-- C4: every previously-unseen model id starts from the default entry
`(weight, theta) = (1000, 500)`; a good verdict moves the entry to
`(min 1000 (w+30), max 50 (θ−8))`, a bad verdict to
`(max 0 (w−100), min 500 (θ+30))`; and over any finite verdict stream
applied to a fresh controller every entry stays inside
`[0, 1000] × [50, 500]`. -/
theorem controller_step_saturation :
    (∀ (c : Controller) (m : String),
        (c.update m true).state.lookup m =
          some (let e := (c.state.lookup m).getD ⟨1000, 500⟩
                CtrlEntry.mk (min 1000 (e.weight + 30)) (max 50 (e.theta - 8)))) ∧
    (∀ (c : Controller) (m : String),
        (c.update m false).state.lookup m =
          some (let e := (c.state.lookup m).getD ⟨1000, 500⟩
                CtrlEntry.mk (max 0 (e.weight - 100)) (min 500 (e.theta + 30)))) ∧
    (∀ (l : List (String × Bool)) (m : String) (e : CtrlEntry),
        (runVerdicts ⟨[]⟩ l).state.lookup m = some e →
        0 ≤ e.weight ∧ e.weight ≤ 1000 ∧ 50 ≤ e.theta ∧ e.theta ≤ 500) := by
  refine ⟨fun c m => ?_, fun c m => ?_, fun l m e hm => ?_⟩
  · simpa using lookup_update c m true
  · simpa using lookup_update c m false
  · exact runVerdicts_bounds l ⟨[]⟩ (by intro m e h; simp [List.lookup] at h) m e hm

/-- Witness for C4: the stream good-then-bad on one agent lands on the
entry `(900, 500)`, inside the bounds. -/
theorem controller_step_saturation_witness :
    0 ≤ (CtrlEntry.mk 900 500).weight ∧ (CtrlEntry.mk 900 500).weight ≤ 1000 ∧
      50 ≤ (CtrlEntry.mk 900 500).theta ∧ (CtrlEntry.mk 900 500).theta ≤ 500 :=
  controller_step_saturation.2.2 [("a", true), ("a", false)] "a" ⟨900, 500⟩ (by decide)

/-- C8: `get` on an unseen model id returns the defaults and, as a side
effect, inserts the default entry into the controller state. -/
theorem controller_get_unseen (c : Controller) (m : String)
    (h : c.state.lookup m = none) :
    (c.get m).1 = (1000, 500) ∧
      (c.get m).2.state.lookup m = some ⟨1000, 500⟩ ∧
      (c.get m).2 ≠ c := by
  have h1 : (c.ensure m).state.lookup m = some ⟨1000, 500⟩ := by
    rw [lookup_ensure, h]
    rfl
  have h2 : c.get m = ((1000, 500), c.ensure m) := by
    unfold Controller.get
    simp only [h1]
  have h3 : c.ensure m = ⟨(m, ⟨1000, 500⟩) :: c.state⟩ := by
    unfold Controller.ensure
    rw [h]
  refine ⟨by rw [h2], by rw [h2]; exact h1, ?_⟩
  rw [h2, h3]
  intro heq
  have hlen := congrArg (fun c => c.state.length) heq
  simp at hlen

/-- Witness for C8: reading the unseen id `"x"` on a fresh controller. -/
theorem controller_get_unseen_witness :
    ((Controller.mk []).get "x").1 = (1000, 500) ∧
      ((Controller.mk []).get "x").2.state.lookup "x" = some ⟨1000, 500⟩ ∧
      ((Controller.mk []).get "x").2 ≠ ⟨[]⟩ :=
  controller_get_unseen ⟨[]⟩ "x" rfl

/-- C9: `update` changes at most the entry of the updated model id; the
binding of every other id is untouched. -/
theorem controller_update_frame (c : Controller) (m : String) (v : Bool)
    (m' : String) (h : m' ≠ m) :
    (c.update m v).state.lookup m' = c.state.lookup m' :=
  lookup_update_ne c m m' v h

/-- Witness for C9: updating `"a"` leaves the entry of `"b"` unchanged. -/
theorem controller_update_frame_witness :
    ((Controller.mk [("b", ⟨700, 200⟩)]).update "a" false).state.lookup "b" =
      (Controller.mk [("b", ⟨700, 200⟩)]).state.lookup "b" :=
  controller_update_frame ⟨[("b", ⟨700, 200⟩)]⟩ "a" false "b" (by decide)

/-- C2: `append` raises `IndexMismatch` exactly when the event's index is
not `next_index()`; it raises `PrevHashMismatch` exactly when the index
matches but `prev_hash` is not `last_hash(model_id)`; otherwise — with no
signature, commitment or event-hash condition — it persists the event.
On an error no row is inserted (the raises precede the INSERT), so the
store value is unchanged. -/
theorem append_error_conditions (s : List Event) (ev : Event) :
    (append s ev = .error .indexMismatch ↔ ev.index ≠ next_index s) ∧
    (append s ev = .error .prevHashMismatch ↔
      ev.index = next_index s ∧ ev.prev_hash ≠ last_hash s ev.model_id) ∧
    (append s ev = .ok (s ++ [ev]) ↔
      ev.index = next_index s ∧ ev.prev_hash = last_hash s ev.model_id) := by
  unfold append
  by_cases h1 : ev.index = next_index s <;>
    by_cases h2 : ev.prev_hash = last_hash s ev.model_id <;>
    simp [h1, h2]

/-- C7: `verify_signature` is a total Bool-valued function; it returns
false exactly when the underlying pynacl verifier fails (raises
`BadSignatureError`), and true exactly when it succeeds — a failure is
never propagated. -/
theorem verify_signature_returns_bool
    (naclVerify : List Nat → String → List Nat → Except BadSignatureError Unit)
    (vk : List Nat) (msg : String) (sig : List Nat) :
    (verify_signature naclVerify vk msg sig = true ↔ naclVerify vk msg sig = .ok ()) ∧
    (verify_signature naclVerify vk msg sig = false ↔ naclVerify vk msg sig = .error ⟨⟩) := by
  cases h : naclVerify vk msg sig with
  | ok u =>
    cases u
    simp [verify_signature, h]
  | error e =>
    cases e
    simp [verify_signature, h]

/-- C5: across any sequence of `make_event` calls on one agent — with
arbitrary wall-clock readings (which may regress) and arbitrary store
snapshots — the `ts` values of the produced events are strictly
increasing; each event's `ts` is `next_ts` of the wall clock, the
agent's private counter and the store's `last_ts`, and the returned
counter equals the chosen `ts`. -/
theorem make_event_ts_strict_mono (blake2b : String → String)
    (sign : List Nat → String → List Nat) (sk : List Nat) (model_id : String)
    (last : Int) (calls : List (Int × List Event × String × Bool)) :
    List.Chain' (· < ·)
      ((runMake blake2b sign sk model_id last calls).map Event.ts) ∧
    (∀ (now : Int) (store : List Event) (payload : String) (cheat : Bool) (lts : Int),
      (make_event blake2b sign sk model_id lts now store payload cheat).1.ts =
        next_ts now lts (last_ts store model_id) ∧
      (make_event blake2b sign sk model_id lts now store payload cheat).2 =
        (make_event blake2b sign sk model_id lts now store payload cheat).1.ts) := by
  have gt_lemma : ∀ (now lts : Int) (db : Option Int), lts < next_ts now lts db := by
    intro now lts db
    unfold next_ts
    have h1 : lts + 1 ≤ max (lts + 1)
        (match db with | some t => t + 1 | none => 0) := le_max_left _ _
    have h2 : max (lts + 1) (match db with | some t => t + 1 | none => 0) ≤
        max now (max (lts + 1) (match db with | some t => t + 1 | none => 0)) :=
      le_max_right _ _
    omega
  have chain : ∀ (cs : List (Int × List Event × String × Bool)) (l0 : Int),
      List.Chain' (· < ·) (l0 :: (runMake blake2b sign sk model_id l0 cs).map Event.ts) := by
    intro cs
    induction cs with
    | nil =>
      intro l0
      simp [runMake]
    | cons call rest ih =>
      intro l0
      obtain ⟨now, store, payload, cheat⟩ := call
      simp only [runMake, List.map_cons]
      exact List.chain'_cons.mpr ⟨gt_lemma now l0 (last_ts store model_id), ih _⟩
  exact ⟨(chain calls last).tail, fun now store payload cheat lts => ⟨rfl, rfl⟩⟩

/-- C10: `rebuild_event` produces an event whose `payload_commit` is the
commitment of its payload, whose `event_hash` is the canonical hash of
its fields and whose `payload_hash` equals its `event_hash`; hence the
full verifier's commit and hash checks pass on a rebuilt event and its
verdict reduces to the signature check alone, whatever the supplied
signature. -/
theorem rebuild_event_consistent (blake2b : String → String)
    (naclVerify : List Nat → String → List Nat → Except BadSignatureError Unit)
    (model_id : String) (index : Nat) (payload prev_hash : String) (ts : Int)
    (signature : List Nat) (vk : List Nat) (c : Controller) (st : AnomalyStats) :
    (rebuild_event blake2b model_id index payload prev_hash ts signature).payload_commit =
      commit_payload blake2b payload ∧
    (rebuild_event blake2b model_id index payload prev_hash ts signature).event_hash =
      hash_payload blake2b model_id index prev_hash payload ts ∧
    (rebuild_event blake2b model_id index payload prev_hash ts signature).payload_hash =
      (rebuild_event blake2b model_id index payload prev_hash ts signature).event_hash ∧
    (verify_event_full blake2b naclVerify
        (rebuild_event blake2b model_id index payload prev_hash ts signature) vk c st).1 =
      verify_signature naclVerify vk
        (rebuild_event blake2b model_id index payload prev_hash ts signature).canonical_bytes
        signature := by
  refine ⟨rfl, rfl, rfl, ?_⟩
  simp [verify_event_full, rebuild_event]

/-- Counterexample to C3 as stated: `verify_event_full` is not pure — at
a concrete event it returns a controller and an anomaly-stats value
different from the ones passed in (it updates the controller and bumps
the counters). -/
theorem verify_event_full_not_pure :
    ¬ ((verify_event_full (fun s => s)
          (fun _ _ _ => (Except.ok () : Except BadSignatureError Unit))
          ⟨"m", 0, 0, "p", "h", "c", "g", "h", []⟩ [] ⟨[]⟩ {}).2.2 =
            ({} : AnomalyStats) ∧
       (verify_event_full (fun s => s)
          (fun _ _ _ => (Except.ok () : Except BadSignatureError Unit))
          ⟨"m", 0, 0, "p", "h", "c", "g", "h", []⟩ [] ⟨[]⟩ {}).2.1 =
            (⟨[]⟩ : Controller)) := by
  decide

/-- C3 amended: the verdict of `verify_event_full` is
`sig_ok AND commit_ok AND hash_ok`, computed from the event and the key
alone and never raising on a cryptographic failure; but the function is
not pure — it also applies the verdict to the controller it is given
and increments the anomaly counters (`total_events` always grows). -/
theorem verify_event_full_spec (blake2b : String → String)
    (naclVerify : List Nat → String → List Nat → Except BadSignatureError Unit)
    (ev : Event) (vk : List Nat) (c : Controller) (st : AnomalyStats) :
    (verify_event_full blake2b naclVerify ev vk c st).1 =
      (verify_signature naclVerify vk ev.canonical_bytes ev.signature &&
       (commit_payload blake2b ev.payload == ev.payload_commit) &&
       ((hash_payload blake2b ev.model_id ev.index ev.prev_hash ev.payload ev.ts ==
           ev.event_hash) && (ev.payload_hash == ev.event_hash))) ∧
    (verify_event_full blake2b naclVerify ev vk c st).2.1 =
      c.update ev.model_id (verify_event_full blake2b naclVerify ev vk c st).1 ∧
    (verify_event_full blake2b naclVerify ev vk c st).2.2.total_events =
      st.total_events + 1 := by
  refine ⟨rfl, rfl, ?_⟩
  simp only [verify_event_full]
  split <;> split <;> split <;> split <;> rfl

/-- Reading back the mutated object after an in-place attribute
assignment. -/
lemma heapModify_get (h : Heap) (r : Nat) (f : Event → Event) (e : Event)
    (hr : List.get? h r = some e) :
    List.get? (heapModify h r f) r = some (f e) := by
  unfold heapModify
  rw [hr]
  have hlt : r < h.length := by
    by_contra hge
    rw [List.get?_eq_none.mpr (by omega)] at hr
    exact absurd hr (by simp)
  simp [List.get?_eq_getElem?, List.getElem?_set_self hlt]

/-- Counterexample to C6 as stated: the `CommitDriftAttacker.mutate_event`
hook does not build a new event — it rewrites the fields of the
already-built event in place, as seen on one concrete heap. -/
theorem event_mutation_counterexample :
    ¬ ((commitDrift_mutate true DriftMode.both
          [⟨"m", 0, 0, "p", "ph", "pc", "g", "eh", []⟩] 0).1 =
        [⟨"m", 0, 0, "p", "ph", "pc", "g", "eh", []⟩]) := by
  decide

/-- C6 amended: the `Event` dataclass is mutable and the adversarial
`mutate_event` hooks rewrite fields of the received event in place and
return the same reference: after a commit-drift mutation the object at
the original reference carries `payload_commit = "DEAD"*16`,
`event_hash = "BEEF"*16` and `payload_hash = event_hash`, and after a
slow-drip mutation it carries the payload with the `"_shadow"` suffix
while every hash field stays stale; `canonical_bytes`, computed from the
object at verification time, therefore re-reads the mutated state.  The
hooks leave the heap untouched when the random draw says to stay
honest. -/
theorem mutate_event_in_place (e : Event) (h : Heap) (r : Nat)
    (hr : List.get? h r = some e) :
    ((commitDrift_mutate true DriftMode.both h r).2 = r ∧
     List.get? (commitDrift_mutate true DriftMode.both h r).1 r =
       some { e with payload_commit := DEAD64, event_hash := BEEF64,
                     payload_hash := BEEF64 } ∧
     Event.canonical_bytes
         { e with payload_commit := DEAD64, event_hash := BEEF64,
                  payload_hash := BEEF64 } =
       e.model_id ++ "|" ++ toString e.index ++ "|" ++ e.prev_hash ++ "|" ++
         BEEF64 ++ "|" ++ DEAD64 ++ "|" ++ toString e.ts) ∧
    ((slowDrip_mutate true h r).2 = r ∧
     List.get? (slowDrip_mutate true h r).1 r =
       some { e with payload := e.payload ++ "_shadow" }) ∧
    (∀ mode : DriftMode, commitDrift_mutate false mode h r = (h, r)) ∧
    slowDrip_mutate false h r = (h, r) := by
  have h1 : commitDrift_mutate true DriftMode.both h r =
      (heapModify
        (heapModify (heapModify h r (fun e => { e with payload_commit := DEAD64 }))
          r (fun e => { e with event_hash := BEEF64 }))
        r (fun e => { e with payload_hash := e.event_hash }), r) := by
    simp [commitDrift_mutate]
  have h2 : slowDrip_mutate true h r =
      (heapModify h r (fun e => { e with payload := e.payload ++ "_shadow" }), r) := by
    simp [slowDrip_mutate]
  refine ⟨⟨by rw [h1], ?_, rfl⟩, ⟨by rw [h2], ?_⟩, fun mode => rfl, rfl⟩
  · rw [h1]
    have g1 := heapModify_get h r (fun e => { e with payload_commit := DEAD64 }) e hr
    have g2 := heapModify_get _ r (fun e => { e with event_hash := BEEF64 }) _ g1
    have g3 := heapModify_get _ r (fun e => { e with payload_hash := e.event_hash }) _ g2
    exact g3
  · rw [h2]
    exact heapModify_get h r (fun e => { e with payload := e.payload ++ "_shadow" }) e hr

/-- Witness for C6 amended: the in-place mutation observed on a concrete
one-object heap. -/
theorem mutate_event_in_place_witness :
    ((commitDrift_mutate true DriftMode.both
        [⟨"m", 0, 0, "p", "ph", "pc", "g", "eh", []⟩] 0).2 = 0 ∧
     List.get? (commitDrift_mutate true DriftMode.both
        [⟨"m", 0, 0, "p", "ph", "pc", "g", "eh", []⟩] 0).1 0 =
       some ⟨"m", 0, 0, "p", BEEF64, DEAD64, "g", BEEF64, []⟩ ∧
     Event.canonical_bytes (⟨"m", 0, 0, "p", BEEF64, DEAD64, "g", BEEF64, []⟩ : Event) =
       "m" ++ "|" ++ toString (0 : Nat) ++ "|" ++ "g" ++ "|" ++
         BEEF64 ++ "|" ++ DEAD64 ++ "|" ++ toString (0 : Int)) ∧
    ((slowDrip_mutate true [⟨"m", 0, 0, "p", "ph", "pc", "g", "eh", []⟩] 0).2 = 0 ∧
     List.get? (slowDrip_mutate true
        [⟨"m", 0, 0, "p", "ph", "pc", "g", "eh", []⟩] 0).1 0 =
       some ⟨"m", 0, 0, "p" ++ "_shadow", "ph", "pc", "g", "eh", []⟩) ∧
    (∀ mode : DriftMode, commitDrift_mutate false mode
        [⟨"m", 0, 0, "p", "ph", "pc", "g", "eh", []⟩] 0 =
      ([⟨"m", 0, 0, "p", "ph", "pc", "g", "eh", []⟩], 0)) ∧
    slowDrip_mutate false [⟨"m", 0, 0, "p", "ph", "pc", "g", "eh", []⟩] 0 =
      ([⟨"m", 0, 0, "p", "ph", "pc", "g", "eh", []⟩], 0) :=
  mutate_event_in_place ⟨"m", 0, 0, "p", "ph", "pc", "g", "eh", []⟩
    [⟨"m", 0, 0, "p", "ph", "pc", "g", "eh", []⟩] 0 rfl

/-! ## Store-invariant lemmas for the dual-continuity theorem -/

/-- The max-`idx` fold only returns elements of the list it folds over. -/
lemma foldl_pickLater_mem :
    ∀ (l : List Event) (acc : Option Event) (a : Event),
      l.foldl pickLater acc = some a → acc = some a ∨ a ∈ l := by
  intro l
  induction l with
  | nil =>
    intro acc a h
    exact Or.inl h
  | cons e rest ih =>
    intro acc a h
    rcases ih (pickLater acc e) a h with h' | h'
    · cases acc with
      | none =>
        simp only [pickLater] at h'
        injection h' with h''
        exact Or.inr (h'' ▸ List.mem_cons_self e rest)
      | some b =>
        simp only [pickLater] at h'
        split at h'
        · injection h' with h''
          exact Or.inr (h'' ▸ List.mem_cons_self e rest)
        · injection h' with h''
          exact Or.inl (by rw [h''])
    · exact Or.inr (List.mem_cons_of_mem e h')

/-- The newest-row query returns a stored row of the queried model id. -/
lemma selectLast_mem (s : List Event) (m : String) (a : Event)
    (h : selectLast s m = some a) : a ∈ s := by
  rcases foldl_pickLater_mem _ none a h with h' | h'
  · exact absurd h' (by simp)
  · exact List.mem_of_mem_filter h'

/-- Appending a row of another model id does not change the newest-row
query. -/
lemma selectLast_append_nomatch (s : List Event) (ev : Event) (m : String)
    (hm : (ev.model_id == m) = false) :
    selectLast (s ++ [ev]) m = selectLast s m := by
  unfold selectLast
  rw [List.filter_append]
  simp [List.filter, hm]

/-- Appending a row of the queried model id whose `idx` beats every
stored row makes it the newest row. -/
lemma selectLast_append_match (s : List Event) (ev : Event) (m : String)
    (hm : (ev.model_id == m) = true)
    (hidx : ∀ a ∈ s, a.index < ev.index) :
    selectLast (s ++ [ev]) m = some ev := by
  unfold selectLast
  rw [List.filter_append]
  have hf : List.filter (fun e => e.model_id == m) [ev] = [ev] := by
    simp [List.filter, hm]
  rw [hf, List.foldl_append]
  show pickLater ((s.filter (fun e => e.model_id == m)).foldl pickLater none) ev = some ev
  cases hsl : (s.filter (fun e => e.model_id == m)).foldl pickLater none with
  | none => rfl
  | some a =>
    have ha : a ∈ s := selectLast_mem s m a hsl
    have := hidx a ha
    simp [pickLater, this]

/-- Folding `max` over the indices `0, …, n−1` gives `n − 1`. -/
lemma foldl_max_range (n : Nat) : (List.range (n + 1)).foldl max 0 = n := by
  induction n with
  | zero => rfl
  | succ k ih =>
    rw [List.range_succ, List.foldl_append]
    simp only [List.foldl_cons, List.foldl_nil, ih]
    omega

/-- Under the invariant, `COALESCE(MAX(idx) + 1, 0)` is the row count. -/
lemma next_index_of_range (s : List Event)
    (hinv : s.map Event.index = List.range s.length) :
    next_index s = s.length := by
  cases s with
  | nil => rfl
  | cons e rest =>
    show ((e :: rest).map Event.index).foldl max 0 + 1 = (e :: rest).length
    rw [hinv]
    rw [show (e :: rest).length = rest.length + 1 from rfl, foldl_max_range]

/-- Extending a chain by one event whose `prev_hash` is the chain's end
hash. -/
lemma linkedFrom_append (h : String) (l : List Event) (e : Event) :
    linkedFrom h (l ++ [e]) ↔ linkedFrom h l ∧ e.prev_hash = endHash h l := by
  induction l generalizing h with
  | nil => simp [linkedFrom, endHash]
  | cons x rest ih =>
    show (x.prev_hash = h ∧ linkedFrom x.event_hash (rest ++ [e])) ↔
      (x.prev_hash = h ∧ linkedFrom x.event_hash rest) ∧
        e.prev_hash = endHash x.event_hash rest
    rw [ih x.event_hash]
    tauto

/-- The end hash of a chain extended by `e` is `e.event_hash`. -/
lemma endHash_append (h : String) (l : List Event) (e : Event) :
    endHash h (l ++ [e]) = e.event_hash := by
  induction l generalizing h with
  | nil => rfl
  | cons x rest ih => exact ih x.event_hash

/-- A successful `append` certifies the structural conditions and inserts
the row at the end. -/
lemma append_ok_elim (s : List Event) (ev : Event) (s' : List Event)
    (h : append s ev = .ok s') :
    s' = s ++ [ev] ∧ ev.index = next_index s ∧
      ev.prev_hash = last_hash s ev.model_id := by
  by_cases h1 : ev.index = next_index s
  · by_cases h2 : ev.prev_hash = last_hash s ev.model_id
    · simp only [append, h1, h2] at h
      simp only [if_neg (not_not.mpr rfl)] at h
      refine ⟨?_, h1, h2⟩
      simpa using h.symm
    · simp [append, h1, h2] at h
  · simp [append, h1] at h

/-- The store invariant is preserved by every successful `append`. -/
lemma storeInv_append (s : List Event) (ev : Event) (s' : List Event)
    (hinv : StoreInv s) (h : append s ev = .ok s') : StoreInv s' := by
  obtain ⟨hs', h1, h2⟩ := append_ok_elim s ev s' h
  subst hs'
  obtain ⟨hmap, hchain⟩ := hinv
  have hlen : next_index s = s.length := next_index_of_range s hmap
  have hevidx : ev.index = s.length := by rw [h1, hlen]
  have hidxlt : ∀ a ∈ s, a.index < ev.index := by
    intro a ha
    have hmem : a.index ∈ s.map Event.index := List.mem_map_of_mem _ ha
    rw [hmap] at hmem
    have := List.mem_range.mp hmem
    omega
  constructor
  · rw [List.map_append, hmap, List.length_append]
    simp only [List.map_cons, List.map_nil, hevidx, List.length_cons, List.length_nil]
    rw [show s.length + (0 + 1) = s.length + 1 from by omega, List.range_succ]
  · intro m
    obtain ⟨hlink, hlast⟩ := hchain m
    rw [List.filter_append]
    cases hm : ev.model_id == m with
    | false =>
      have hf : List.filter (fun e => e.model_id == m) [ev] = [] := by
        simp [List.filter, hm]
      rw [hf, List.append_nil]
      refine ⟨hlink, ?_⟩
      have hsame : last_hash (s ++ [ev]) m = last_hash s m := by
        unfold last_hash
        rw [selectLast_append_nomatch s ev m hm]
      rw [hsame, hlast]
    | true =>
      have hf : List.filter (fun e => e.model_id == m) [ev] = [ev] := by
        simp [List.filter, hm]
      rw [hf]
      have hmeq : ev.model_id = m := by simpa using hm
      constructor
      · rw [linkedFrom_append]
        refine ⟨hlink, ?_⟩
        rw [h2, hmeq, hlast]
      · rw [endHash_append]
        unfold last_hash
        rw [selectLast_append_match s ev m hm hidxlt]

/-- The store invariant holds after any successful run of appends. -/
lemma appendAll_inv (evs : List Event) :
    ∀ (s0 s : List Event), StoreInv s0 → appendAll s0 evs = .ok s → StoreInv s := by
  induction evs with
  | nil =>
    intro s0 s h0 h
    simp only [appendAll] at h
    have : s0 = s := by simpa using h
    exact this ▸ h0
  | cons ev rest ih =>
    intro s0 s h0 h
    simp only [appendAll] at h
    cases happ : append s0 ev with
    | error e =>
      rw [happ] at h
      simp at h
    | ok s1 =>
      rw [happ] at h
      exact ih s1 s (storeInv_append s0 ev s1 h0 happ) h

/-- Under the invariant the filtered rows are already in `idx` order, so
`get_chain`'s `ORDER BY idx` is the identity on them. -/
lemma get_chain_eq_filter (s : List Event) (m : String)
    (hmap : s.map Event.index = List.range s.length) :
    get_chain s m = s.filter (fun e => e.model_id == m) := by
  unfold get_chain
  apply List.Sorted.insertionSort_eq
  have hp : s.Pairwise (fun a b => a.index < b.index) := by
    have hr := List.pairwise_lt_range s.length
    rw [← hmap] at hr
    exact List.pairwise_map.mp hr
  exact (List.Pairwise.sublist (List.filter_sublist s) hp).imp le_of_lt

/-- C1: after any successful sequence of appends on an initially empty
store, the stored `index` values are exactly `{0, …, n−1}` for `n` the
number of stored events; and for every model id `M` the chain of `M`
(its rows in `idx` order) has `GENESIS` as the first `prev_hash` and
links each event's `prev_hash` to the previous event's `event_hash`. -/
theorem lineage_dual_continuity (evs s : List Event)
    (h : appendAll [] evs = .ok s) :
    (∀ k : Nat, (∃ e ∈ s, e.index = k) ↔ k < s.length) ∧
    (∀ m : String,
      get_chain s m = s.filter (fun e => e.model_id == m) ∧
      linkedFrom GENESIS (get_chain s m)) := by
  have hinv : StoreInv s :=
    appendAll_inv evs [] s ⟨rfl, fun m => ⟨trivial, rfl⟩⟩ h
  obtain ⟨hmap, hchain⟩ := hinv
  constructor
  · intro k
    constructor
    · rintro ⟨e, he, rfl⟩
      have hmem : e.index ∈ s.map Event.index := List.mem_map_of_mem _ he
      rw [hmap] at hmem
      exact List.mem_range.mp hmem
    · intro hk
      have hmem : k ∈ s.map Event.index := by
        rw [hmap]
        exact List.mem_range.mpr hk
      obtain ⟨e, he, hek⟩ := List.mem_map.mp hmem
      exact ⟨e, he, hek⟩
  · intro m
    have hge := get_chain_eq_filter s m hmap
    refine ⟨hge, ?_⟩
    rw [hge]
    exact (hchain m).1

/-- Witness for C1: the three-event interleaved history of `demoEvents`
appends successfully; index 2 is stored and model `"A"`'s chain links
from `GENESIS`. -/
theorem lineage_dual_continuity_witness :
    (∃ e ∈ demoEvents, e.index = 2) ∧
    linkedFrom GENESIS (get_chain demoEvents "A") :=
  ⟨((lineage_dual_continuity demoEvents demoEvents rfl).1 2).mpr (by decide),
   ((lineage_dual_continuity demoEvents demoEvents rfl).2 "A").2⟩

end Poci
